import Mathlib

/-!
# Verification of the import-graph builder (`dag.go`)

This file gives a shallow embedding of the worklist-driven import-graph
builder and its renderers, and proves the frozen claims about them.

The external package-metadata provider (`go/build.Import`) is modelled as a
finite association list `Env` mapping a package identifier to its metadata
(`PkgInfo`); a missing entry models a classification error.  External process
execution in `ShowGraph` (the `dot` rasterizer, the image viewer, temp-file
creation) is modelled by booleans recording whether each call succeeds; a
failing call corresponds to `log.Fatalf`, which exits the process.
-/

namespace InspectVendor

/-- Metadata returned by the classifier for one package: the canonical import
path (`build.Package.ImportPath`), the direct imports (`build.Package.Imports`)
and the standard-library flag (`build.Package.Goroot`). -/
structure PkgInfo where
  importPath : String
  imports : List String
  goroot : Bool
deriving DecidableEq

/-- The external metadata provider: a finite table of classifiable packages.
`build.Import` returning an error is modelled by absence from the table. -/
abbrev Env := List (String × PkgInfo)

/-- Association-list lookup; models reading a Go map (`m[k]`, comma-ok). -/
def lookupA {β : Type} : List (String × β) → String → Option β
  | [], _ => none
  | (k, v) :: rest, pn => if k = pn then some v else lookupA rest pn

/-- Go map read with the zero value as default (`m[k]` without comma-ok). -/
def lookupD {β : Type} (l : List (String × β)) (pn : String) (d : β) : β :=
  (lookupA l pn).getD d

/-- The `ImportGraph` struct of `dag.go`.  Go maps become association lists
(new entries are consed in front, so `lookupA` sees the latest write);
`Std` is a set of keys. -/
structure IG where
  Imports : List (String × List String)
  ImportPaths : List (String × String)
  Std : List String
  srcDir : String
  includeStd : Bool
  todo : List String
  added : List String
deriving DecidableEq

/-- Lexicographic comparison of character lists (byte order, as Go compares
strings). -/
def lexLe : List Char → List Char → Bool
  | [], _ => true
  | _ :: _, [] => false
  | a :: as, b :: bs => if a = b then lexLe as bs else decide (a < b)

/-- Lexicographic `≤` on strings, as used by `sort.Strings`. -/
def strLe (a b : String) : Bool := lexLe a.toList b.toList

/-- `sort.Strings`: sort lexicographically (stable; Go's sort is in place). -/
def sortStrings (l : List String) : List String :=
  List.insertionSort (fun a b => strLe a b = true) l

/-- The pseudo-import check at the top of `skip`:
`pn == "C" || strings.HasPrefix(pn, "golang_org/x/")`. -/
def pseudoImport (pn : String) : Bool :=
  pn == "C" || "golang_org/x/".toList.isPrefixOf pn.toList

/-- `ImportGraph.skip`: discard pseudo-imports, already-visited packages, and
(only when `includeStd` is set) packages already recorded in `Std`. -/
def IG.skip (ig : IG) (pn : String) : Bool :=
  pseudoImport pn || (lookupA ig.Imports pn).isSome ||
    (ig.includeStd && decide (pn ∈ ig.Std))

/-- Setting a key in the `Std` set (`ig.Std[pn] = struct{}{}`). -/
def insertStd (l : List String) (pn : String) : List String :=
  if pn ∈ l then l else pn :: l

/-- `ImportGraph.addPkg`: classify one popped identifier and return the
updated state together with the list `more` of direct imports to be pushed
onto the front of the worklist.  Mirrors `dag.go` line by line: skip check,
classification (error → drop), `Goroot` handling, empty-`ImportPath` check,
sort, record, and the `more` loop filtered by `skip` on the updated state. -/
def IG.addPkg (env : Env) (ig : IG) (pn : String) : IG × List String :=
  if ig.skip pn then (ig, [])
  else
    match lookupA env pn with
    | none => (ig, [])
    | some p =>
      let ig1 := if p.goroot then { ig with Std := insertStd ig.Std pn } else ig
      if p.goroot && !ig.includeStd then (ig1, [])
      else if p.importPath = "" then (ig1, [])
      else
        let imps := sortStrings p.imports
        let ig2 := { ig1 with
          Imports := (pn, imps) :: ig1.Imports,
          ImportPaths := (pn, p.importPath) :: ig1.ImportPaths,
          added := ig1.added ++ [pn] }
        (ig2, imps.filter (fun pi => !(ig2.skip pi)))

/-- Keys of the classifier table (the finite universe of classifiable ids). -/
def keysOf (env : Env) : List String := (env.map Prod.fst).dedup

/-- Number of classifiable packages not yet recorded as graph nodes
(keys of the table absent from the given `Imports` map). -/
def unvisited (env : Env) (I : List (String × List String)) : Nat :=
  ((keysOf env).filter (fun k => (lookupA I k).isNone)).length

/-- Upper bound on the length of any direct-import list in the table. -/
def maxImp : Env → Nat
  | [] => 0
  | e :: rest => max e.2.imports.length (maxImp rest)

/-- Termination measure for the worklist loop: adding a node costs one
`unvisited` unit and can push at most `maxImp` new work items; every other
step shortens the worklist. -/
def scanMeasure (env : Env) (ig : IG) : Nat :=
  unvisited env ig.Imports * (maxImp env + 1) + ig.todo.length

/-- The body of `ImportGraph.Scan`, with explicit fuel so that it is
structurally recursive.  Besides the state it threads the trace of
identifiers actually handed to the classifier (`build.Import` is called
exactly when `skip` is false), which instruments the loop without changing
it.  `Scan` runs it with fuel `scanMeasure`, which is proved sufficient. -/
def scanFuel (env : Env) : Nat → IG → List String → IG × List String
  | 0, ig, calls => (ig, calls)
  | Nat.succ fuel, ig, calls =>
    match ig.todo with
    | [] => (ig, calls)
    | t :: rest =>
      let calls2 := if ig.skip t then calls else calls ++ [t]
      let pr := ig.addPkg env t
      scanFuel env fuel { pr.1 with todo := pr.2 ++ rest } calls2

/-- `ImportGraph.Scan`: drain the worklist.  Also returns the classifier
call trace. -/
def IG.Scan (env : Env) (ig : IG) : IG × List String :=
  scanFuel env (scanMeasure env ig) ig []

/-- `NewImportGraph`: empty graph seeded with the seed lister's output
(the external `go list` call is the seed lister; its result is `seeds`). -/
def NewImportGraph (wd : String) (includeStd : Bool) (seeds : List String) : IG :=
  { Imports := [], ImportPaths := [], Std := [], srcDir := wd,
    includeStd := includeStd, todo := seeds, added := [] }

/-- Build the graph from seeds and drain the worklist, as `doDAG` does. -/
def runScan (env : Env) (includeStd : Bool) (seeds : List String) : IG × List String :=
  (NewImportGraph "" includeStd seeds).Scan env

/-! ## The matcher -/

/-- The characters of the vendoring separator `"/vendor/"`. -/
def vendorSeg : List Char := "/vendor/".toList

/-- The text after the first occurrence of `"/vendor/"`, if any: models
`i := strings.Index(pn, "/vendor/"); pn[i+len("/vendor/"):]`. -/
def afterFirstVendor : List Char → Option (List Char)
  | [] => none
  | c :: cs =>
    if vendorSeg.isPrefixOf (c :: cs) then some ((c :: cs).drop vendorSeg.length)
    else afterFirstVendor cs

/-- The `matcher` struct: an optional compiled pattern.  The compiled regular
expression is external; it is modelled as the predicate `re.MatchString`. -/
structure matcher where
  re : Option (List Char → Bool)

/-- `matcher.Match`: no pattern matches everything; otherwise strip
everything up to and including the first `"/vendor/"` and apply the
pattern to the remainder. -/
def matcher.Match (mr : matcher) (pn : String) : Bool :=
  match mr.re with
  | none => true
  | some p =>
    match afterFirstVendor pn.toList with
    | some rest => p rest
    | none => p pn.toList

/-! ## Renderers

Each renderer is a pure function from the finished graph to the lines it
writes.  Output is split into the lines written to the writer argument `w`
(`fmt.Fprintf(w, ...)`) and the lines written to the process standard output
(`fmt.Println`). -/

/-- Output of one renderer call: the final contents of the writer it was
handed, and the lines it printed to standard output. -/
structure Out where
  writerLines : List String
  stdoutLines : List String
deriving DecidableEq

/-- The per-node filtered import list shared by `WriteText` and `WriteDot`:
drop standard-library targets unless `includeStd`, then drop targets
rejected by the matcher. -/
def filteredImports (ig : IG) (mr : matcher) (pn : String) : List String :=
  (lookupD ig.Imports pn []).filter fun pi =>
    (ig.includeStd || !(decide (pi ∈ ig.Std))) && mr.Match pi

/-- The lines `WriteText` prints for one node: nothing if the node fails the
matcher or its filtered import list is empty; otherwise the header
`pn <= importPath` followed by one indented line per filtered import. -/
def nodeBlock (ig : IG) (mr : matcher) (pn : String) : List String :=
  if mr.Match pn = false then []
  else if filteredImports ig mr pn = [] then []
  else (pn ++ " <= " ++ lookupD ig.ImportPaths pn "") ::
    (filteredImports ig mr pn).map (fun pi => "    " ++ pi)

/-- `ImportGraph.WriteText`: the adjacency listing, written to `w`. -/
def IG.WriteText (ig : IG) (w : List String) (mr : matcher) : Out :=
  { writerLines := w ++ (ig.added.map (nodeBlock ig mr)).flatten,
    stdoutLines := [] }

/-- The set of nodes the adjacency listing emits: nodes in visitation order
that pass the matcher and have a nonempty filtered import list. -/
def IG.textNodes (ig : IG) (mr : matcher) : List String :=
  ig.added.filter (fun pn => mr.Match pn && !(filteredImports ig mr pn).isEmpty)

/-- `ImportGraph.WriteFlat`: collects the matching nodes, sorts them, and
prints them with `fmt.Println` — to standard output, not to `w`. -/
def IG.WriteFlat (ig : IG) (w : List String) (mr : matcher) : Out :=
  { writerLines := w,
    stdoutLines := sortStrings (ig.added.filter (fun pn => mr.Match pn)) }

/-- The node-index table of `WriteDot` (`nodes[pn] = i` for `i, pn` over
`added`); a later write wins, as in a Go map. -/
def dotNodes : Nat → List String → List (String × Nat)
  | _, [] => []
  | i, pn :: rest => dotNodes (i + 1) rest ++ [(pn, i)]

/-- One edge statement of the graph description (`%d -> %d;`). -/
def dotEdgeLine (a b : Nat) : String :=
  "    " ++ toString a ++ " -> " ++ toString b ++ ";"

/-- One node declaration of the graph description, with the filled style
for vendored canonical paths. -/
def dotNodeLine (i : Nat) (pn : String) (vendored : Bool) : String :=
  if vendored then "    " ++ toString i ++ " [label=\"" ++ pn ++ "\",style=filled];"
  else "    " ++ toString i ++ " [label=\"" ++ pn ++ "\"];"

/-- `strings.Contains(pv, "/vendor/")`. -/
def containsVendor (s : String) : Bool := (afterFirstVendor s.toList).isSome

/-- The lines `WriteDot` emits for the node at index `i`, mirroring the
same per-node visibility rule as the adjacency listing. -/
def dotBlock (ig : IG) (mr : matcher) (nodes : List (String × Nat))
    (i : Nat) (pn : String) : List String :=
  if mr.Match pn = false then []
  else if filteredImports ig mr pn = [] then []
  else dotNodeLine i pn (containsVendor (lookupD ig.ImportPaths pn "")) ::
    (filteredImports ig mr pn).map (fun pi => dotEdgeLine i (lookupD nodes pi 0))

/-- `ImportGraph.WriteDot`: the graph-description emitter, written to `w`. -/
def IG.WriteDot (ig : IG) (w : List String) (mr : matcher) : Out :=
  { writerLines := w ++ ["digraph pkgdag \x7b"] ++
      (ig.added.enum.map (fun e => dotBlock ig mr (dotNodes 0 ig.added) e.1 e.2)).flatten ++
      ["\x7d"],
    stdoutLines := [] }

/-! ## The rasterized-image renderer

`ShowGraph` shells out three times (temp-file creation, `dot`, the viewer);
each call either succeeds or hits `log.Fatalf`, which exits the process
immediately with a non-zero status.  The success of each external call is an
input; the outcome records the observable effects. -/

/-- Success/failure of each external call made by `ShowGraph`. -/
structure ExecEnv where
  tempFileOk : Bool
  dotOk : Bool
  viewerOk : Bool
deriving DecidableEq

/-- Observable outcome of `ShowGraph`: whether the process died via
`log.Fatalf` (non-zero exit), whether the temporary image file was created,
whether it was removed, whether the viewer was invoked, and the graph
description piped to the rasterizer. -/
structure ShowOutcome where
  fatalExit : Bool
  tempCreated : Bool
  tempRemoved : Bool
  viewerRan : Bool
  dotInput : List String

/-- `ImportGraph.ShowGraph`: write the dot description to a buffer, create a
temp file, rasterize, view, then `os.Remove` the file.  A failing external
call runs `log.Fatalf` and nothing after it executes. -/
def IG.ShowGraph (ig : IG) (ex : ExecEnv) (_svgViewer : String) (mr : matcher) :
    ShowOutcome :=
  let buf := (ig.WriteDot [] mr).writerLines
  if ex.tempFileOk = false then ⟨true, false, false, false, buf⟩
  else if ex.dotOk = false then ⟨true, true, false, false, buf⟩
  else if ex.viewerOk = false then ⟨true, true, false, true, buf⟩
  else ⟨false, true, true, true, buf⟩

/-! ## Spec-side definitions -/

/-- Modelled from the spec: the suffix of an identifier after the *last*
`.../vendor/` prefix ("keeping only the suffix after the last such prefix").
Used to compare the spec's stated stripping rule with the code's. -/
def afterLastVendor : List Char → Option (List Char)
  | [] => none
  | c :: cs =>
    match afterLastVendor cs with
    | some r => some r
    | none =>
      if vendorSeg.isPrefixOf (c :: cs) then some ((c :: cs).drop vendorSeg.length)
      else none

/-- A classifier table in which standard-library packages import only
standard-library packages (true of Go's actual standard library). -/
def StdClosed (env : Env) : Prop :=
  ∀ e ∈ env, e.2.goroot = true → ∀ x ∈ e.2.imports, ∀ e2 ∈ env,
    e2.1 = x → e2.2.goroot = true

instance (env : Env) : Decidable (StdClosed env) :=
  decidable_of_iff
    (∀ e ∈ env, e.2.goroot = true → ∀ x ∈ e.2.imports, ∀ e2 ∈ env,
      e2.1 = x → e2.2.goroot = true) Iff.rfl

/-! ## Concrete fixtures

Small classifier tables used to evaluate the definitions on closed inputs. -/

/-- One standard-library package `s` imported by a project package `a`. -/
def envStd : Env := [("s", ⟨"s", [], true⟩), ("a", ⟨"a", ["s"], false⟩)]

/-- A classifier returning a duplicated direct-import list. -/
def envDup : Env := [("a", ⟨"a", ["b", "b"], false⟩)]

/-- A classifier returning an unsorted duplicate-free direct-import list. -/
def envSorted : Env := [("a", ⟨"a", ["c", "b"], false⟩)]

/-- A single package with no imports. -/
def envLone : Env := [("a", ⟨"a", [], false⟩)]

/-- A package `a` importing a childless package `b`. -/
def envPair : Env := [("a", ⟨"a", ["b"], false⟩), ("b", ⟨"b", [], false⟩)]

/-- A non-std package `b` reachable only through the std package `s`:
the std set is not import-closed here. -/
def envToggle : Env :=
  [("a", ⟨"a", ["s"], false⟩), ("s", ⟨"s", ["b"], true⟩), ("b", ⟨"b", [], false⟩)]

/-- An import-closed table: the std packages `s` and `fmt` import only std. -/
def envClosed : Env :=
  [("a", ⟨"a", ["s"], false⟩), ("s", ⟨"s", ["fmt"], true⟩), ("fmt", ⟨"fmt", [], true⟩)]

/-- A package `a` importing an unclassifiable `bad` and a fine sibling `b`. -/
def envBad : Env := [("a", ⟨"a", ["bad", "b"], false⟩), ("b", ⟨"b", [], false⟩)]

/-- A table used with `igStdW`. -/
def envW : Env := [("a", ⟨"a", ["b"], false⟩)]

/-- A state with standard-library inclusion enabled and `fmt` recorded std. -/
def igStdW : IG := ⟨[], [], ["fmt"], "", true, [], []⟩

/-- A finished one-node graph whose node `a` lists an import `x` that was
never added as a node. -/
def igDotW : IG := ⟨[("a", ["x"])], [("a", "a")], [], "", false, [], ["a"]⟩

/-! ## Reachability specification

`Ok` says an identifier is classifiable and not excluded: not a
pseudo-import, classified successfully, with a nonempty canonical path, and
not a standard-library package unless inclusion is enabled.  `Reachable` is
the set of identifiers the spec calls "reachable, classifiable,
non-excluded": `Ok` seeds, closed under `Ok` direct imports of reachable
nodes. -/

def Ok (env : Env) (inc : Bool) (pn : String) : Prop :=
  pseudoImport pn = false ∧
    ∃ p, lookupA env pn = some p ∧ p.importPath ≠ "" ∧ (p.goroot = true → inc = true)

/-- Direct imports of a package according to the classifier table. -/
def importsOf (env : Env) (q : String) : List String :=
  match lookupA env q with
  | some p => p.imports
  | none => []

/-- Spec-side reachability: the packages that should end up in the graph. -/
inductive Reachable (env : Env) (inc : Bool) (seeds : List String) : String → Prop
  | seed : ∀ pn, pn ∈ seeds → Ok env inc pn → Reachable env inc seeds pn
  | step : ∀ q pn, Reachable env inc seeds q → pn ∈ importsOf env q →
      Ok env inc pn → Reachable env inc seeds pn

/-- The worklist invariant maintained by every `Scan` step. -/
structure ScanInv (env : Env) (inc : Bool) (seeds : List String) (ig : IG) : Prop where
  incEq : ig.includeStd = inc
  addedNodup : ig.added.Nodup
  addedKeys : ∀ pn, pn ∈ ig.added ↔ (lookupA ig.Imports pn).isSome = true
  addedSound : ∀ pn, pn ∈ ig.added → Reachable env inc seeds pn
  todoProv : ∀ x, x ∈ ig.todo → x ∈ seeds ∨ ∃ q, q ∈ ig.added ∧ x ∈ importsOf env q
  addedClosed : ∀ q, q ∈ ig.added → ∀ x, x ∈ importsOf env q → Ok env inc x →
    x ∈ ig.added ∨ x ∈ ig.todo
  seedsCov : ∀ s, s ∈ seeds → Ok env inc s → s ∈ ig.added ∨ s ∈ ig.todo
  stdInv : ∀ x, x ∈ ig.Std → ∃ p, lookupA env x = some p ∧ p.goroot = true ∧
    (inc = true → p.importPath ≠ "" → x ∈ ig.added)
  importsVal : ∀ pn l, lookupA ig.Imports pn = some l →
    ∃ p, lookupA env pn = some p ∧ l = sortStrings p.imports

/-! ## Association-list and helper lemmas -/

theorem lookupA_cons {β : Type} (k : String) (v : β) (rest : List (String × β)) (pn : String) :
    lookupA ((k, v) :: rest) pn = if k = pn then some v else lookupA rest pn := rfl

theorem lookupA_cons_ne {β : Type} {k pn : String} (v : β) (rest : List (String × β))
    (h : k ≠ pn) : lookupA ((k, v) :: rest) pn = lookupA rest pn := by
  simp [lookupA, h]

theorem lookupA_some_mem {β : Type} : ∀ {l : List (String × β)} {pn : String} {v : β},
    lookupA l pn = some v → (pn, v) ∈ l
  | [], _, _, h => by simp [lookupA] at h
  | (k, w) :: rest, pn, v, h => by
    by_cases hk : k = pn
    · subst hk
      simp [lookupA] at h
      subst h
      exact List.mem_cons_self _ _
    · rw [lookupA_cons_ne w rest hk] at h
      exact List.mem_cons_of_mem _ (lookupA_some_mem h)

theorem lookupA_append_none {β : Type} : ∀ (l1 l2 : List (String × β)) (pn : String),
    lookupA l1 pn = none → lookupA (l1 ++ l2) pn = lookupA l2 pn
  | [], _, _, _ => rfl
  | (k, v) :: rest, l2, pn, h => by
    by_cases hk : k = pn
    · simp [lookupA, hk] at h
    · rw [List.cons_append, lookupA_cons_ne v (rest ++ l2) hk]
      rw [lookupA_cons_ne v rest hk] at h
      exact lookupA_append_none rest l2 pn h

theorem mem_insertStd {l : List String} {pn x : String} :
    x ∈ insertStd l pn ↔ x = pn ∨ x ∈ l := by
  unfold insertStd
  split
  · next h =>
    constructor
    · exact fun hx => Or.inr hx
    · rintro (rfl | hx)
      · exact h
      · exact hx
  · exact List.mem_cons

theorem skip_iff {ig : IG} {pn : String} :
    ig.skip pn = true ↔
      pseudoImport pn = true ∨ (lookupA ig.Imports pn).isSome = true ∨
        (ig.includeStd = true ∧ pn ∈ ig.Std) := by
  simp [IG.skip, Bool.or_eq_true, Bool.and_eq_true, decide_eq_true_iff, or_assoc]

theorem skip_eq_false {ig : IG} {pn : String} :
    ig.skip pn = false ↔
      pseudoImport pn = false ∧ lookupA ig.Imports pn = none ∧
        ¬(ig.includeStd = true ∧ pn ∈ ig.Std) := by
  constructor
  · intro h
    have h1 : pseudoImport pn = false := by
      cases hps : pseudoImport pn
      · rfl
      · have hc := (@skip_iff ig pn).mpr (Or.inl hps)
        rw [h] at hc
        cases hc
    have h2 : lookupA ig.Imports pn = none := by
      cases hlk : lookupA ig.Imports pn with
      | none => rfl
      | some v =>
        have hc := (@skip_iff ig pn).mpr (Or.inr (Or.inl (by simp [hlk])))
        rw [h] at hc
        cases hc
    refine ⟨h1, h2, fun hmem => ?_⟩
    have hc := (@skip_iff ig pn).mpr (Or.inr (Or.inr hmem))
    rw [h] at hc
    cases hc
  · rintro ⟨h1, h2, h3⟩
    cases hsk : ig.skip pn
    · rfl
    · rcases skip_iff.mp hsk with h | h | h
      · rw [h1] at h
        exact absurd h (by simp)
      · rw [h2] at h
        exact absurd h (by simp)
      · exact absurd h h3

/-! ## Sorting lemmas -/

theorem lexLe_total : ∀ as bs : List Char, lexLe as bs = true ∨ lexLe bs as = true
  | [], _ => Or.inl rfl
  | _ :: _, [] => Or.inr rfl
  | a :: as, b :: bs => by
    by_cases hab : a = b
    · subst hab
      rcases lexLe_total as bs with h | h
      · exact Or.inl (by simpa [lexLe] using h)
      · exact Or.inr (by simpa [lexLe] using h)
    · rcases lt_or_gt_of_ne hab with h | h
      · exact Or.inl (by simp [lexLe, hab, h])
      · exact Or.inr (by simp [lexLe, Ne.symm hab, h])

theorem lexLe_trans : ∀ as bs cs : List Char,
    lexLe as bs = true → lexLe bs cs = true → lexLe as cs = true
  | [], _, _, _, _ => rfl
  | _ :: _, [], _, h1, _ => by simp [lexLe] at h1
  | _ :: _, _ :: _, [], _, h2 => by simp [lexLe] at h2
  | a :: as, b :: bs, c :: cs, h1, h2 => by
    by_cases hab : a = b <;> by_cases hbc : b = c
    · subst hab
      subst hbc
      simp only [lexLe, if_pos rfl] at h1 h2 ⊢
      exact lexLe_trans as bs cs h1 h2
    · subst hab
      simp only [lexLe, if_neg hbc] at h2 ⊢
      exact h2
    · subst hbc
      simp only [lexLe, if_neg hab] at h1 ⊢
      exact h1
    · simp only [lexLe, if_neg hab, if_neg hbc, decide_eq_true_eq] at h1 h2
      have hac : a < c := lt_trans h1 h2
      simp [lexLe, if_neg (ne_of_lt hac), hac]

theorem strLe_total (a b : String) : strLe a b = true ∨ strLe b a = true :=
  lexLe_total a.toList b.toList

theorem strLe_trans {a b c : String} (h1 : strLe a b = true) (h2 : strLe b c = true) :
    strLe a c = true :=
  lexLe_trans a.toList b.toList c.toList h1 h2

theorem perm_sortStrings (l : List String) : List.Perm (sortStrings l) l :=
  List.perm_insertionSort _ l

theorem mem_sortStrings {l : List String} {x : String} : x ∈ sortStrings l ↔ x ∈ l :=
  (perm_sortStrings l).mem_iff

theorem length_sortStrings (l : List String) : (sortStrings l).length = l.length :=
  (perm_sortStrings l).length_eq

theorem nodup_sortStrings {l : List String} (h : l.Nodup) : (sortStrings l).Nodup :=
  ((perm_sortStrings l).nodup_iff).mpr h

theorem sorted_sortStrings (l : List String) :
    List.Sorted (fun a b => strLe a b = true) (sortStrings l) := by
  haveI : IsTotal String (fun a b => strLe a b = true) := ⟨strLe_total⟩
  haveI : IsTrans String (fun a b => strLe a b = true) := ⟨fun _ _ _ => strLe_trans⟩
  exact List.sorted_insertionSort _ l

/-! ## Measure lemmas -/

theorem maxImp_mem : ∀ {env : Env} {e : String × PkgInfo}, e ∈ env →
    e.2.imports.length ≤ maxImp env
  | e' :: rest, e, h => by
    rcases List.mem_cons.mp h with rfl | h
    · exact le_max_left _ _
    · exact le_trans (maxImp_mem h) (le_max_right _ _)

theorem maxImp_lookup {env : Env} {pn : String} {p : PkgInfo}
    (h : lookupA env pn = some p) : p.imports.length ≤ maxImp env :=
  maxImp_mem (lookupA_some_mem h)

theorem keysOf_nodup (env : Env) : (keysOf env).Nodup := List.nodup_dedup _

theorem mem_keysOf_of_lookup {env : Env} {pn : String} {p : PkgInfo}
    (h : lookupA env pn = some p) : pn ∈ keysOf env := by
  have := lookupA_some_mem h
  exact List.mem_dedup.mpr (List.mem_map.mpr ⟨(pn, p), this, rfl⟩)

theorem length_filter_lt {α : Type} : ∀ (ks : List α) (t : α) (f g : α → Bool),
    ks.Nodup → t ∈ ks → f t = true → g t = false → (∀ k, k ≠ t → g k = f k) →
    (ks.filter g).length < (ks.filter f).length
  | [], t, _, _, _, htks, _, _, _ => absurd htks (List.not_mem_nil t)
  | a :: ks, t, f, g, hnd, htks, hft, hgt, hfg => by
    rcases List.mem_cons.mp htks with rfl | hmem
    · have hnotin : t ∉ ks := (List.nodup_cons.mp hnd).1
      have hsame : ks.filter g = ks.filter f :=
        List.filter_congr (fun k hk => hfg k (fun he => hnotin (he ▸ hk)))
      have e1 : (t :: ks).filter f = t :: ks.filter f := by simp [List.filter_cons, hft]
      have e2 : (t :: ks).filter g = ks.filter g := by simp [List.filter_cons, hgt]
      rw [e1, e2, hsame, List.length_cons]
      exact Nat.lt_succ_self _
    · have hat : a ≠ t := fun he => (List.nodup_cons.mp hnd).1 (he ▸ hmem)
      have hga : g a = f a := hfg a hat
      have ih := length_filter_lt ks t f g (List.nodup_cons.mp hnd).2 hmem hft hgt hfg
      cases hfa : f a with
      | true =>
        have e1 : (a :: ks).filter f = a :: ks.filter f := by simp [List.filter_cons, hfa]
        have e2 : (a :: ks).filter g = a :: ks.filter g := by
          simp [List.filter_cons, hga, hfa]
        rw [e1, e2, List.length_cons, List.length_cons]
        omega
      | false =>
        have e1 : (a :: ks).filter f = ks.filter f := by simp [List.filter_cons, hfa]
        have e2 : (a :: ks).filter g = ks.filter g := by simp [List.filter_cons, hga, hfa]
        rw [e1, e2]
        exact ih

theorem unvisited_cons_lt {env : Env} {I : List (String × List String)} {t : String}
    (imps : List String) (hnone : lookupA I t = none) (ht : t ∈ keysOf env) :
    unvisited env ((t, imps) :: I) < unvisited env I := by
  refine length_filter_lt (keysOf env) t _ _ (keysOf_nodup env) ht ?_ ?_ ?_
  · simp [hnone]
  · simp [lookupA]
  · intro k hk
    simp only [lookupA_cons_ne imps I (fun he => hk he.symm)]

/-- Exhaustive description of the five exit paths of `addPkg`. -/
theorem addPkg_characterization (env : Env) (ig : IG) (pn : String) :
    ig.skip pn = true ∧ ig.addPkg env pn = (ig, []) ∨
    ig.skip pn = false ∧ lookupA env pn = none ∧ ig.addPkg env pn = (ig, []) ∨
    (∃ p, ig.skip pn = false ∧ lookupA env pn = some p ∧ p.goroot = true ∧
      ig.includeStd = false ∧
      ig.addPkg env pn = ({ ig with Std := insertStd ig.Std pn }, [])) ∨
    (∃ p, ig.skip pn = false ∧ lookupA env pn = some p ∧
      (p.goroot = true → ig.includeStd = true) ∧ p.importPath = "" ∧
      ig.addPkg env pn =
        ((if p.goroot = true then { ig with Std := insertStd ig.Std pn } else ig), [])) ∨
    (∃ p ig2, ig.skip pn = false ∧ lookupA env pn = some p ∧
      (p.goroot = true → ig.includeStd = true) ∧ p.importPath ≠ "" ∧
      ig2 = (let ig1 := if p.goroot = true then { ig with Std := insertStd ig.Std pn } else ig
             { ig1 with Imports := (pn, sortStrings p.imports) :: ig1.Imports,
                        ImportPaths := (pn, p.importPath) :: ig1.ImportPaths,
                        added := ig1.added ++ [pn] }) ∧
      ig.addPkg env pn = (ig2, (sortStrings p.imports).filter (fun pi => !(ig2.skip pi)))) := by
  by_cases hsk : ig.skip pn = true
  · exact Or.inl ⟨hsk, by simp [IG.addPkg, hsk]⟩
  · have hsk' : ig.skip pn = false := by simpa using hsk
    cases hlk : lookupA env pn with
    | none => exact Or.inr (Or.inl ⟨hsk', rfl, by simp [IG.addPkg, hsk', hlk]⟩)
    | some p =>
      by_cases hg : p.goroot = true
      · by_cases hinc : ig.includeStd = true
        · by_cases hpath : p.importPath = ""
          · refine Or.inr (Or.inr (Or.inr (Or.inl ⟨p, hsk', rfl, fun _ => hinc, hpath, ?_⟩)))
            simp [IG.addPkg, hsk', hlk, hg, hinc, hpath]
          · refine Or.inr (Or.inr (Or.inr (Or.inr
              ⟨p, _, hsk', rfl, fun _ => hinc, hpath, rfl, ?_⟩)))
            simp [IG.addPkg, hsk', hlk, hg, hinc, hpath]
        · have hincf : ig.includeStd = false := by simpa using hinc
          refine Or.inr (Or.inr (Or.inl ⟨p, hsk', rfl, hg, hincf, ?_⟩))
          simp [IG.addPkg, hsk', hlk, hg, hincf]
      · have hgf : p.goroot = false := by simpa using hg
        by_cases hpath : p.importPath = ""
        · refine Or.inr (Or.inr (Or.inr (Or.inl
            ⟨p, hsk', rfl, fun h => absurd h hg, hpath, ?_⟩)))
          simp [IG.addPkg, hsk', hlk, hgf, hpath]
        · refine Or.inr (Or.inr (Or.inr (Or.inr
            ⟨p, _, hsk', rfl, fun h => absurd h hg, hpath, rfl, ?_⟩)))
          simp [IG.addPkg, hsk', hlk, hgf, hpath]

/-- If a popped identifier is skipped yet satisfies `Ok`, it is already a
graph node (the skip is harmless). -/
theorem skip_true_resolve {env : Env} {inc : Bool} (ig : IG)
    (hkeys : ∀ pn, pn ∈ ig.added ↔ (lookupA ig.Imports pn).isSome = true)
    (hstd : ∀ x, x ∈ ig.Std → ∃ p, lookupA env x = some p ∧ p.goroot = true ∧
      (inc = true → p.importPath ≠ "" → x ∈ ig.added))
    (hinc : ig.includeStd = inc)
    {t : String} (hsk : ig.skip t = true) (hok : Ok env inc t) : t ∈ ig.added := by
  obtain ⟨hps, p, hl, hpath, _⟩ := hok
  rcases skip_iff.mp hsk with h | h | ⟨h1, h2⟩
  · rw [hps] at h
    cases h
  · exact (hkeys t).mpr h
  · obtain ⟨p', hl', _, himp⟩ := hstd t h2
    rw [hl] at hl'
    injection hl' with he
    subst he
    exact himp (hinc ▸ h1) hpath

/-- Invariant preservation for a step that pops `t` without adding a node,
possibly recording it in `Std`. -/
theorem scanInv_pop {env : Env} {inc : Bool} {seeds : List String} {ig : IG}
    {t : String} {rest : List String} (S2 : List String)
    (hinv : ScanInv env inc seeds ig) (ht : ig.todo = t :: rest)
    (hres : Ok env inc t → t ∈ ig.added)
    (hS : ∀ x, x ∈ S2 → x ∈ ig.Std ∨
      (x = t ∧ ∃ p, lookupA env t = some p ∧ p.goroot = true ∧
        (inc = true → p.importPath ≠ "" → t ∈ ig.added))) :
    ScanInv env inc seeds { ig with Std := S2, todo := rest } := by
  refine ⟨hinv.incEq, hinv.addedNodup, hinv.addedKeys, hinv.addedSound, ?_, ?_, ?_, ?_,
    hinv.importsVal⟩
  · intro x hx
    exact hinv.todoProv x (by rw [ht]; exact List.mem_cons_of_mem t hx)
  · intro q hq x hxi hok
    rcases hinv.addedClosed q hq x hxi hok with h | h
    · exact Or.inl h
    · rw [ht] at h
      rcases List.mem_cons.mp h with rfl | h
      · exact Or.inl (hres hok)
      · exact Or.inr h
  · intro s hs hok
    rcases hinv.seedsCov s hs hok with h | h
    · exact Or.inl h
    · rw [ht] at h
      rcases List.mem_cons.mp h with rfl | h
      · exact Or.inl (hres hok)
      · exact Or.inr h
  · intro x hx
    rcases hS x hx with h | ⟨rfl, p, hl, hg, himp⟩
    · exact hinv.stdInv x h
    · exact ⟨p, hl, hg, himp⟩

/-- Invariant preservation for a step that adds the popped identifier as a
graph node and pushes its filtered direct imports. -/
theorem scanInv_add {env : Env} {inc : Bool} {seeds : List String} {ig : IG}
    {t : String} {rest : List String} {p : PkgInfo} {ig2 : IG}
    (hinv : ScanInv env inc seeds ig) (ht : ig.todo = t :: rest)
    (hsk : ig.skip t = false) (hlk : lookupA env t = some p)
    (hgi : p.goroot = true → ig.includeStd = true) (hpath : p.importPath ≠ "")
    (hig2 : ig2 =
      (let ig1 := if p.goroot = true then { ig with Std := insertStd ig.Std t } else ig
       { ig1 with Imports := (t, sortStrings p.imports) :: ig1.Imports,
                  ImportPaths := (t, p.importPath) :: ig1.ImportPaths,
                  added := ig1.added ++ [t] })) :
    ScanInv env inc seeds
      { ig2 with todo := (sortStrings p.imports).filter (fun pi => !(ig2.skip pi)) ++ rest } := by
  obtain ⟨hps, hnone, -⟩ := skip_eq_false.mp hsk
  have hA : ig2.added = ig.added ++ [t] := by
    cases hgb : p.goroot <;> simp [hig2, hgb]
  have hI : ig2.Imports = (t, sortStrings p.imports) :: ig.Imports := by
    cases hgb : p.goroot <;> simp [hig2, hgb]
  have hImp : ig2.includeStd = ig.includeStd := by
    cases hgb : p.goroot <;> simp [hig2, hgb]
  have hStd : ∀ x, x ∈ ig2.Std ↔ (p.goroot = true ∧ x = t) ∨ x ∈ ig.Std := by
    intro x
    cases hgb : p.goroot <;> simp [hig2, hgb, mem_insertStd]
  have htadd : t ∉ ig.added := fun h => by
    have hk := (hinv.addedKeys t).mp h
    rw [hnone] at hk
    simp at hk
  have hOk : Ok env inc t :=
    ⟨hps, p, hlk, hpath, fun hg => by rw [← hinv.incEq]; exact hgi hg⟩
  have hReach : Reachable env inc seeds t := by
    rcases hinv.todoProv t (by rw [ht]; exact List.mem_cons_self t rest) with h | ⟨q, hq, hqi⟩
    · exact Reachable.seed t h hOk
    · exact Reachable.step q t (hinv.addedSound q hq) hqi hOk
  have himports_t : importsOf env t = p.imports := by simp [importsOf, hlk]
  have hkeys2 : ∀ pn, pn ∈ ig2.added ↔ (lookupA ig2.Imports pn).isSome = true := by
    intro pn
    rw [hA, hI]
    by_cases hpt : pn = t
    · subst hpt
      simp [lookupA]
    · rw [lookupA_cons_ne _ _ (fun he => hpt he.symm)]
      rw [List.mem_append]
      simp only [List.mem_singleton, hpt, or_false]
      exact hinv.addedKeys pn
  have hstd2 : ∀ x, x ∈ ig2.Std → ∃ q, lookupA env x = some q ∧ q.goroot = true ∧
      (inc = true → q.importPath ≠ "" → x ∈ ig2.added) := by
    intro x hx
    rcases (hStd x).mp hx with ⟨hgb, he⟩ | hx'
    · exact ⟨p, he ▸ hlk, hgb, fun _ _ => by
        rw [hA, he]
        exact List.mem_append_right _ (List.mem_singleton_self t)⟩
    · obtain ⟨q, hl', hg', himp⟩ := hinv.stdInv x hx'
      exact ⟨q, hl', hg', fun hi hp => by
        rw [hA]
        exact List.mem_append_left _ (himp hi hp)⟩
  refine ⟨?_, ?_, hkeys2, ?_, ?_, ?_, ?_, hstd2, ?_⟩
  · show ig2.includeStd = inc
    rw [hImp]
    exact hinv.incEq
  · show ig2.added.Nodup
    rw [hA]
    exact List.nodup_append.mpr ⟨hinv.addedNodup, List.nodup_singleton t,
      fun x hx hx' => htadd ((List.mem_singleton.mp hx') ▸ hx)⟩
  · intro pn hpn
    rw [hA] at hpn
    rcases List.mem_append.mp hpn with h | h
    · exact hinv.addedSound pn h
    · rw [List.mem_singleton.mp h]
      exact hReach
  · intro x hx
    rcases List.mem_append.mp hx with h | h
    · have hmem := (List.mem_filter.mp h).1
      refine Or.inr ⟨t, ?_, ?_⟩
      · rw [hA]
        exact List.mem_append_right _ (List.mem_singleton_self t)
      · rw [himports_t]
        exact mem_sortStrings.mp hmem
    · rcases hinv.todoProv x (by rw [ht]; exact List.mem_cons_of_mem t h) with h' | ⟨q, hq, hqi⟩
      · exact Or.inl h'
      · exact Or.inr ⟨q, by rw [hA]; exact List.mem_append_left _ hq, hqi⟩
  · intro q hq x hxi hok
    rw [hA] at hq
    rcases List.mem_append.mp hq with hq' | hq'
    · rcases hinv.addedClosed q hq' x hxi hok with h | h
      · exact Or.inl (by rw [hA]; exact List.mem_append_left _ h)
      · rw [ht] at h
        rcases List.mem_cons.mp h with rfl | h'
        · exact Or.inl (by rw [hA]; exact List.mem_append_right _ (List.mem_singleton_self x))
        · exact Or.inr (List.mem_append_right _ h')
    · rw [List.mem_singleton.mp hq'] at hxi
      rw [himports_t] at hxi
      by_cases hskx : ig2.skip x = true
      · refine Or.inl ?_
        rcases skip_iff.mp hskx with h | h | ⟨h1, h2⟩
        · rw [hok.1] at h
          cases h
        · exact (hkeys2 x).mpr h
        · obtain ⟨q', hl', _, himp⟩ := hstd2 x h2
          obtain ⟨-, p'', hl'', hpath'', -⟩ := hok
          rw [hl''] at hl'
          injection hl' with he
          subst he
          exact himp (by rw [← hinv.incEq, ← hImp]; exact h1) hpath''
      · refine Or.inr (List.mem_append_left _ ?_)
        refine List.mem_filter.mpr ⟨mem_sortStrings.mpr hxi, ?_⟩
        simp [hskx]
  · intro s hs hok
    rcases hinv.seedsCov s hs hok with h | h
    · exact Or.inl (by rw [hA]; exact List.mem_append_left _ h)
    · rw [ht] at h
      rcases List.mem_cons.mp h with rfl | h'
      · exact Or.inl (by rw [hA]; exact List.mem_append_right _ (List.mem_singleton_self s))
      · exact Or.inr (List.mem_append_right _ h')
  · intro pn l hl
    rw [hI] at hl
    by_cases hpt : pn = t
    · subst hpt
      rw [lookupA_cons] at hl
      simp at hl
      exact ⟨p, hlk, hl.symm⟩
    · rw [lookupA_cons_ne _ _ (fun he => hpt he.symm)] at hl
      exact hinv.importsVal pn l hl

/-- One `Scan` step preserves the invariant. -/
theorem scanStep_inv {env : Env} {inc : Bool} {seeds : List String} {ig : IG}
    {t : String} {rest : List String}
    (hinv : ScanInv env inc seeds ig) (ht : ig.todo = t :: rest) :
    ScanInv env inc seeds
      { (ig.addPkg env t).1 with todo := (ig.addPkg env t).2 ++ rest } := by
  rcases addPkg_characterization env ig t with
    ⟨hsk, heq⟩ | ⟨hsk, hlk, heq⟩ | ⟨p, hsk, hlk, hg, hincf, heq⟩ |
    ⟨p, hsk, hlk, hgi, hpath, heq⟩ | ⟨p, ig2, hsk, hlk, hgi, hpath, hig2, heq⟩
  · rw [heq]
    exact scanInv_pop ig.Std hinv ht
      (fun hok => skip_true_resolve ig hinv.addedKeys hinv.stdInv hinv.incEq hsk hok)
      (fun x hx => Or.inl hx)
  · rw [heq]
    refine scanInv_pop ig.Std hinv ht (fun hok => ?_) (fun x hx => Or.inl hx)
    obtain ⟨-, p, hl, -, -⟩ := hok
    rw [hlk] at hl
    cases hl
  · rw [heq]
    show ScanInv env inc seeds { ig with Std := insertStd ig.Std t, todo := rest }
    refine scanInv_pop (insertStd ig.Std t) hinv ht (fun hok => ?_) (fun x hx => ?_)
    · obtain ⟨-, p', hl, -, hgor⟩ := hok
      rw [hlk] at hl
      injection hl with he
      subst he
      have : inc = true := hgor hg
      rw [← hinv.incEq, hincf] at this
      cases this
    · rcases mem_insertStd.mp hx with rfl | hx'
      · refine Or.inr ⟨rfl, p, hlk, hg, fun hi _ => ?_⟩
        rw [← hinv.incEq, hincf] at hi
        cases hi
      · exact Or.inl hx'
  · cases hgb : p.goroot with
    | false =>
      rw [hgb] at heq
      simp only [Bool.false_eq_true, if_false] at heq
      rw [heq]
      refine scanInv_pop ig.Std hinv ht (fun hok => ?_) (fun x hx => Or.inl hx)
      obtain ⟨-, p', hl, hpath', -⟩ := hok
      rw [hlk] at hl
      injection hl with he
      subst he
      exact absurd hpath hpath'
    | true =>
      rw [hgb] at heq
      simp only [if_true] at heq
      rw [heq]
      show ScanInv env inc seeds { ig with Std := insertStd ig.Std t, todo := rest }
      refine scanInv_pop (insertStd ig.Std t) hinv ht (fun hok => ?_) (fun x hx => ?_)
      · obtain ⟨-, p', hl, hpath', -⟩ := hok
        rw [hlk] at hl
        injection hl with he
        subst he
        exact absurd hpath hpath'
      · rcases mem_insertStd.mp hx with rfl | hx'
        · exact Or.inr ⟨rfl, p, hlk, hgb, fun _ hne => absurd hpath hne⟩
        · exact Or.inl hx'
  · rw [heq]
    exact scanInv_add hinv ht hsk hlk hgi hpath hig2

/-- One `Scan` step strictly decreases the termination measure. -/
theorem scanStep_decrease (env : Env) {ig : IG} {t : String} {rest : List String}
    (ht : ig.todo = t :: rest) :
    scanMeasure env { (ig.addPkg env t).1 with todo := (ig.addPkg env t).2 ++ rest } <
      scanMeasure env ig := by
  have hlen : ig.todo.length = rest.length + 1 := by rw [ht]; rfl
  rcases addPkg_characterization env ig t with
    ⟨hsk, heq⟩ | ⟨hsk, hlk, heq⟩ | ⟨p, hsk, hlk, hg, hincf, heq⟩ |
    ⟨p, hsk, hlk, hgi, hpath, heq⟩ | ⟨p, ig2, hsk, hlk, hgi, hpath, hig2, heq⟩
  · rw [heq]
    simp [scanMeasure, hlen]
  · rw [heq]
    simp [scanMeasure, hlen]
  · rw [heq]
    simp [scanMeasure, hlen]
  · rw [heq]
    cases hgb : p.goroot <;> simp [hgb, scanMeasure, hlen]
  · rw [heq]
    obtain ⟨-, hnone, -⟩ := skip_eq_false.mp hsk
    have hI : ig2.Imports = (t, sortStrings p.imports) :: ig.Imports := by
      cases hgb : p.goroot <;> simp [hig2, hgb]
    have hu : unvisited env ig2.Imports < unvisited env ig.Imports := by
      rw [hI]
      exact unvisited_cons_lt _ hnone (mem_keysOf_of_lookup hlk)
    have hm : ((sortStrings p.imports).filter (fun pi => !(ig2.skip pi))).length ≤
        maxImp env := by
      calc ((sortStrings p.imports).filter (fun pi => !(ig2.skip pi))).length
          ≤ (sortStrings p.imports).length := List.length_filter_le _ _
        _ = p.imports.length := length_sortStrings _
        _ ≤ maxImp env := maxImp_lookup hlk
    have hmul : (unvisited env ig2.Imports + 1) * (maxImp env + 1) ≤
        unvisited env ig.Imports * (maxImp env + 1) :=
      Nat.mul_le_mul_right _ hu
    simp only [scanMeasure, List.length_append, hlen]
    have hexp : (unvisited env ig2.Imports + 1) * (maxImp env + 1) =
        unvisited env ig2.Imports * (maxImp env + 1) + (maxImp env + 1) := by ring
    omega

/-- With fuel at least the measure, `scanFuel` drains the worklist. -/
theorem scanFuel_todo (env : Env) : ∀ (fuel : Nat) (ig : IG) (calls : List String),
    scanMeasure env ig ≤ fuel → ((scanFuel env fuel ig calls).1).todo = []
  | 0, ig, calls, h => by
    have hlen : ig.todo.length = 0 := by
      simp only [scanMeasure] at h
      omega
    simpa [scanFuel] using List.length_eq_zero.mp hlen
  | Nat.succ fuel, ig, calls, h => by
    cases htodo : ig.todo with
    | nil => simp [scanFuel, htodo]
    | cons t rest =>
      simp only [scanFuel, htodo]
      exact scanFuel_todo env fuel _ _
        (Nat.le_of_lt_succ (lt_of_lt_of_le (scanStep_decrease env htodo) h))

/-- `scanFuel` preserves the invariant for any amount of fuel. -/
theorem scanFuel_inv (env : Env) (inc : Bool) (seeds : List String) :
    ∀ (fuel : Nat) (ig : IG) (calls : List String), ScanInv env inc seeds ig →
      ScanInv env inc seeds ((scanFuel env fuel ig calls).1)
  | 0, ig, calls, hinv => by simpa [scanFuel] using hinv
  | Nat.succ fuel, ig, calls, hinv => by
    cases htodo : ig.todo with
    | nil => simpa [scanFuel, htodo] using hinv
    | cons t rest =>
      simp only [scanFuel, htodo]
      exact scanFuel_inv env inc seeds fuel _ _ (scanStep_inv hinv htodo)

/-- The invariant holds for the freshly seeded graph. -/
theorem scanInv_init (env : Env) (inc : Bool) (seeds : List String) (wd : String) :
    ScanInv env inc seeds (NewImportGraph wd inc seeds) := by
  refine ⟨rfl, List.nodup_nil, ?_, ?_, ?_, ?_, ?_, ?_, ?_⟩
  · intro pn
    simp [NewImportGraph, lookupA]
  · intro pn h
    simp [NewImportGraph] at h
  · intro x hx
    exact Or.inl hx
  · intro q hq
    simp [NewImportGraph] at hq
  · intro s hs _
    exact Or.inr hs
  · intro x hx
    simp [NewImportGraph] at hx
  · intro pn l hl
    simp [NewImportGraph, lookupA] at hl

/-- At a terminal state the graph nodes are exactly the reachable set. -/
theorem added_iff_reachable_final {env : Env} {inc : Bool} {seeds : List String} {ig : IG}
    (hinv : ScanInv env inc seeds ig) (hnil : ig.todo = []) (pn : String) :
    pn ∈ ig.added ↔ Reachable env inc seeds pn := by
  constructor
  · exact hinv.addedSound pn
  · intro h
    induction h with
    | seed s hs hok =>
      rcases hinv.seedsCov s hs hok with h' | h'
      · exact h'
      · rw [hnil] at h'
        exact absurd h' (List.not_mem_nil s)
    | step q s _ hsi hok ih =>
      rcases hinv.addedClosed q ih s hsi hok with h' | h'
      · exact h'
      · rw [hnil] at h'
        exact absurd h' (List.not_mem_nil s)

/-- The invariant holds for the finished graph. -/
theorem runScan_inv (env : Env) (inc : Bool) (seeds : List String) :
    ScanInv env inc seeds (runScan env inc seeds).1 :=
  scanFuel_inv env inc seeds _ _ _ (scanInv_init env inc seeds "")

/-- `Scan` drains the worklist completely: the traversal terminates. -/
theorem runScan_todo (env : Env) (inc : Bool) (seeds : List String) :
    (runScan env inc seeds).1.todo = [] :=
  scanFuel_todo env _ _ _ le_rfl

/-- The finished graph's nodes are exactly the reachable identifiers. -/
theorem runScan_added_iff (env : Env) (inc : Bool) (seeds : List String) (pn : String) :
    pn ∈ (runScan env inc seeds).1.added ↔ Reachable env inc seeds pn :=
  added_iff_reachable_final (runScan_inv env inc seeds) (runScan_todo env inc seeds) pn

/-! ## Matcher lemmas -/

theorem afterFirstVendor_none : ∀ (l : List Char),
    (∀ i, vendorSeg.isPrefixOf (l.drop i) = false) → afterFirstVendor l = none
  | [], _ => rfl
  | c :: cs, h => by
    have h0 := h 0
    simp only [List.drop_zero] at h0
    simp only [afterFirstVendor, h0, Bool.false_eq_true, if_false]
    exact afterFirstVendor_none cs (fun i => by
      have hi := h (i + 1)
      simpa [List.drop_succ_cons] using hi)

theorem afterFirstVendor_some : ∀ (l : List Char) (i : Nat),
    vendorSeg.isPrefixOf (l.drop i) = true →
    (∀ j, j < i → vendorSeg.isPrefixOf (l.drop j) = false) →
    afterFirstVendor l = some (l.drop (i + vendorSeg.length))
  | [], i, h, _ => by
    rw [List.drop_nil] at h
    exact absurd h (by decide)
  | c :: cs, 0, h, _ => by
    simp only [List.drop_zero] at h
    simp [afterFirstVendor, h]
  | c :: cs, i + 1, h, hmin => by
    have h0 : vendorSeg.isPrefixOf (c :: cs) = false := by
      have h0' := hmin 0 (Nat.succ_pos i)
      simpa using h0'
    rw [List.drop_succ_cons] at h
    simp only [afterFirstVendor, h0, Bool.false_eq_true, if_false]
    rw [afterFirstVendor_some cs i h (fun j hj => by
      have hj' := hmin (j + 1) (Nat.succ_lt_succ hj)
      simpa [List.drop_succ_cons] using hj')]
    have he : i + 1 + vendorSeg.length = (i + vendorSeg.length) + 1 := by omega
    rw [he, List.drop_succ_cons]

/-! ## Reachability lemmas -/

theorem Reachable_ok {env : Env} {inc : Bool} {seeds : List String} {pn : String}
    (h : Reachable env inc seeds pn) : Ok env inc pn := by
  cases h with
  | seed _ _ hok => exact hok
  | step _ _ _ _ hok => exact hok

theorem Ok_mono {env : Env} {pn : String} (h : Ok env false pn) : Ok env true pn := by
  obtain ⟨hps, p, hl, hpath, -⟩ := h
  exact ⟨hps, p, hl, hpath, fun _ => rfl⟩

theorem Reachable_mono {env : Env} {seeds : List String} {pn : String}
    (h : Reachable env false seeds pn) : Reachable env true seeds pn := by
  induction h with
  | seed s hs hok => exact Reachable.seed s hs (Ok_mono hok)
  | step q s _ hsi hok ih => exact Reachable.step q s ih hsi (Ok_mono hok)

theorem Reachable_nonstd_down {env : Env} {seeds : List String} (hsc : StdClosed env) :
    ∀ {pn : String}, Reachable env true seeds pn →
      ∀ (p : PkgInfo), lookupA env pn = some p → p.goroot = false →
        Reachable env false seeds pn := by
  intro pn h
  induction h with
  | seed s hs hok =>
    intro p hl hg
    obtain ⟨hps, p', hl', hpath, -⟩ := hok
    rw [hl] at hl'
    injection hl' with he
    subst he
    exact Reachable.seed s hs ⟨hps, p, hl, hpath, fun hgr => absurd hgr (by simp [hg])⟩
  | step q s hq hsi hok ih =>
    intro p hl hg
    obtain ⟨hpsq, pq, hlq, hpathq, -⟩ := Reachable_ok hq
    by_cases hgq : pq.goroot = true
    · exfalso
      have hs' : s ∈ pq.imports := by simpa [importsOf, hlq] using hsi
      have hstd := hsc (q, pq) (lookupA_some_mem hlq) hgq s hs' (s, p) (lookupA_some_mem hl) rfl
      rw [hg] at hstd
      cases hstd
    · obtain ⟨hps, p', hl', hpath, -⟩ := hok
      rw [hl] at hl'
      injection hl' with he
      subst he
      exact Reachable.step q s (ih pq hlq (by simpa using hgq)) hsi
        ⟨hps, p, hl, hpath, fun hgr => absurd hgr (by simp [hg])⟩

theorem reachable_only_added_std {env : Env} {seeds : List String} {pn : String}
    (hsc : StdClosed env) (h1 : Reachable env true seeds pn)
    (h2 : ¬ Reachable env false seeds pn) :
    ∃ p, lookupA env pn = some p ∧ p.goroot = true := by
  obtain ⟨-, p, hl, -, -⟩ := Reachable_ok h1
  by_cases hg : p.goroot = true
  · exact ⟨p, hl, hg⟩
  · exact absurd (Reachable_nonstd_down hsc h1 p hl (by simpa using hg)) h2

/-! ## Renderer lemmas -/

theorem filteredImports_mono (ig : IG) (P : List Char → Bool) (pn : String) :
    ∀ pi, pi ∈ filteredImports ig ⟨some P⟩ pn → pi ∈ filteredImports ig ⟨none⟩ pn := by
  intro pi h
  have hm := List.mem_filter.mp h
  refine List.mem_filter.mpr ⟨hm.1, ?_⟩
  have hp := hm.2
  rw [Bool.and_eq_true] at hp
  simp [matcher.Match, hp.1]

theorem flatten_map_filter {α : Type} (f : α → List String) (g : α → Bool)
    (hf : ∀ x, g x = false → f x = []) :
    ∀ l : List α, ((l.filter g).map f).flatten = (l.map f).flatten
  | [] => rfl
  | a :: l => by
    cases hg : g a with
    | true => simp [List.filter_cons, hg, flatten_map_filter f g hf l]
    | false => simp [List.filter_cons, hg, hf a hg, flatten_map_filter f g hf l]

theorem nodeBlock_eq_nil {ig : IG} {mr : matcher} {pn : String}
    (h : (mr.Match pn && !(filteredImports ig mr pn).isEmpty) = false) :
    nodeBlock ig mr pn = [] := by
  unfold nodeBlock
  rcases Bool.and_eq_false_iff.mp h with h1 | h1
  · rw [if_pos h1]
  · have h2 : filteredImports ig mr pn = [] := by
      cases hl : filteredImports ig mr pn
      · rfl
      · rw [hl] at h1
        simp at h1
    rw [h2]
    simp

/-- The adjacency listing's output is exactly the blocks of its emitted
nodes: nodes failing the visibility rule contribute nothing. -/
theorem writeText_textNodes (ig : IG) (w : List String) (mr : matcher) :
    (ig.WriteText w mr).writerLines =
      w ++ ((ig.textNodes mr).map (nodeBlock ig mr)).flatten := by
  unfold IG.WriteText IG.textNodes
  simp only []
  congr 1
  exact (flatten_map_filter (nodeBlock ig mr) _ (fun x hx => nodeBlock_eq_nil hx) ig.added).symm

theorem lookupA_dotNodes_none : ∀ (i : Nat) (l : List String) (pi : String),
    pi ∉ l → lookupA (dotNodes i l) pi = none
  | _, [], _, _ => rfl
  | i, pn :: rest, pi, h => by
    have h1 : pi ∉ rest := fun hh => h (List.mem_cons_of_mem _ hh)
    have h2 : pn ≠ pi := fun he => h (he ▸ List.mem_cons_self pn rest)
    show lookupA (dotNodes (i + 1) rest ++ [(pn, i)]) pi = none
    rw [lookupA_append_none _ _ _ (lookupA_dotNodes_none (i + 1) rest pi h1)]
    simp [lookupA, h2]

/-! ## Claim theorems -/

/-- Claim C1: for every finite (possibly cyclic) classifier table, the
worklist traversal terminates (the worklist is drained), and every
reachable, classifiable, non-excluded identifier appears exactly once in
the visitation order `added` (which is duplicate-free and coincides with
the key set of `Imports`). -/
theorem scan_terminates_visits_once (env : Env) (inc : Bool) (seeds : List String) :
    (runScan env inc seeds).1.todo = [] ∧
    (runScan env inc seeds).1.added.Nodup ∧
    (∀ pn, pn ∈ (runScan env inc seeds).1.added ↔ Reachable env inc seeds pn) ∧
    (∀ pn, pn ∈ (runScan env inc seeds).1.added ↔
      (lookupA (runScan env inc seeds).1.Imports pn).isSome = true) :=
  ⟨runScan_todo env inc seeds, (runScan_inv env inc seeds).addedNodup,
    runScan_added_iff env inc seeds, (runScan_inv env inc seeds).addedKeys⟩

/-- Claim C2, counterexample: with standard-library inclusion disabled, the
std package `s` — already recorded in `Std` after its first classification —
is classified again when re-encountered (it occurs twice in the classifier
call trace), because the `Std` shortcut in `skip` runs only when inclusion
is enabled; its reappearance in the trace also shows it was re-enqueued
from `a`'s direct imports. -/
theorem scan_reclassifies_std_when_disabled :
    (runScan envStd false ["s", "a"]).2 = ["s", "a", "s"] ∧
    "s" ∈ (runScan envStd false ["s", "a"]).1.Std ∧
    ((runScan envStd false ["s", "a"]).2).count "s" = 2 := by
  refine ⟨by decide, by decide, by decide⟩

/-- Claim C2 as amended: the std-membership shortcut applies when
standard-library inclusion is **enabled**, not when it is disabled.  With it
enabled, a popped identifier already recorded in `Std` is skipped — no state
change and no classification — and no identifier recorded in `Std` is ever
enqueued in the `more` list of a step. -/
theorem std_skip_applies_when_enabled (env : Env) (ig : IG)
    (hinc : ig.includeStd = true) :
    (∀ pn, pn ∈ ig.Std → ig.skip pn = true ∧ ig.addPkg env pn = (ig, [])) ∧
    (∀ q pi, pi ∈ (ig.addPkg env q).2 → pi ∉ ((ig.addPkg env q).1).Std) := by
  constructor
  · intro pn hpn
    have hsk : ig.skip pn = true := skip_iff.mpr (Or.inr (Or.inr ⟨hinc, hpn⟩))
    exact ⟨hsk, by simp [IG.addPkg, hsk]⟩
  · intro q pi hpi
    rcases addPkg_characterization env ig q with
      ⟨-, heq⟩ | ⟨-, -, heq⟩ | ⟨p, -, -, -, -, heq⟩ |
      ⟨p, -, -, -, -, heq⟩ | ⟨p, ig2, -, -, -, -, hig2, heq⟩
    · rw [heq] at hpi
      exact absurd hpi (List.not_mem_nil pi)
    · rw [heq] at hpi
      exact absurd hpi (List.not_mem_nil pi)
    · rw [heq] at hpi
      exact absurd hpi (List.not_mem_nil pi)
    · rw [heq] at hpi
      exact absurd hpi (List.not_mem_nil pi)
    · rw [heq] at hpi
      rw [heq]
      have hm := List.mem_filter.mp hpi
      have hsk : ig2.skip pi = false := by
        have hb := hm.2
        cases hx : ig2.skip pi
        · rfl
        · rw [hx] at hb
          cases hb
      obtain ⟨-, -, hnot⟩ := skip_eq_false.mp hsk
      intro hmem
      have hinc2 : ig2.includeStd = true := by
        cases hgb : p.goroot <;> rw [hig2] <;> simp [hgb, hinc]
      exact hnot ⟨hinc2, hmem⟩

/-- Claim C2 witness: a popped identifier already in `Std` is discarded
with no state change when inclusion is enabled, and a `more` list never
contains an identifier recorded in `Std`. -/
theorem std_skip_applies_when_enabled_witness :
    igStdW.addPkg envW "fmt" = (igStdW, []) ∧
    "b" ∉ ((igStdW.addPkg envW "a").1).Std :=
  ⟨((std_skip_applies_when_enabled envW igStdW rfl).1 "fmt" (by decide)).2,
    (std_skip_applies_when_enabled envW igStdW rfl).2 "a" "b" (by decide)⟩

/-- Claim C5, counterexample: the code only sorts the classifier's
direct-import list; it does not deduplicate it, so a duplicated provider
list is stored with the duplicate intact. -/
theorem imports_keep_duplicates :
    lookupA (runScan envDup false ["a"]).1.Imports "a" = some ["b", "b"] ∧
    ¬ (["b", "b"] : List String).Nodup := by
  refine ⟨by decide, by decide⟩

/-- Claim C5 as amended: every stored import list is the lexicographically
sorted permutation of the classifier's direct-import list, hence sorted
always, and duplicate-free whenever the classifier's list is duplicate-free
(deduplication is the provider's contract, not performed by the code). -/
theorem imports_sorted_dedup_if_provider_dedups (env : Env) (inc : Bool)
    (seeds : List String) (pn : String) (l : List String)
    (h : lookupA (runScan env inc seeds).1.Imports pn = some l) :
    List.Sorted (fun a b => strLe a b = true) l ∧
    ∃ p, lookupA env pn = some p ∧ l = sortStrings p.imports ∧
      (p.imports.Nodup → l.Nodup) := by
  obtain ⟨p, hl, heq⟩ := (runScan_inv env inc seeds).importsVal pn l h
  subst heq
  exact ⟨sorted_sortStrings _, p, hl, rfl, fun hnd => nodup_sortStrings hnd⟩

/-- Claim C5 witness: the unsorted duplicate-free list `["c", "b"]` is
stored sorted and duplicate-free. -/
theorem imports_sorted_witness :
    List.Sorted (fun a b => strLe a b = true) ["b", "c"] ∧
    (["b", "c"] : List String).Nodup := by
  have h := imports_sorted_dedup_if_provider_dedups envSorted false ["a"] "a" ["b", "c"]
    (by decide)
  refine ⟨h.1, ?_⟩
  obtain ⟨p, hp, -, hnd⟩ := h.2
  have he : lookupA envSorted "a" = some (⟨"a", ["c", "b"], false⟩ : PkgInfo) := by decide
  rw [he] at hp
  injection hp with he2
  exact hnd (by rw [← he2]; decide)

/-- Claim C6, counterexample: with a classifier whose std package `s`
imports the non-std package `b` (reachable only through `s`), enabling
standard-library inclusion adds the **non-std** node `b`, so enabling does
not only add standard-library nodes. -/
theorem toggle_adds_nonstd_node :
    "b" ∈ (runScan envToggle true ["a"]).1.added ∧
    "b" ∉ (runScan envToggle false ["a"]).1.added ∧
    lookupA envToggle "b" = some ⟨"b", [], false⟩ := by
  refine ⟨by decide, by decide, by decide⟩

/-- Claim C6 as amended: enabling `includeStd` never removes a node — every
node of the disabled run (all of which are non-std) is a node of the enabled
run, with an identical stored import list; and provided the classifier table
is std-import-closed (std packages import only std packages, as in Go), every
node the enabled run adds beyond the disabled run is a std package. -/
theorem toggle_law (env : Env) (seeds : List String) :
    (∀ pn, pn ∈ (runScan env false seeds).1.added →
      pn ∈ (runScan env true seeds).1.added) ∧
    (∀ pn, pn ∈ (runScan env false seeds).1.added →
      lookupA (runScan env true seeds).1.Imports pn =
        lookupA (runScan env false seeds).1.Imports pn) ∧
    (StdClosed env → ∀ pn, pn ∈ (runScan env true seeds).1.added →
      pn ∉ (runScan env false seeds).1.added →
      ∃ p, lookupA env pn = some p ∧ p.goroot = true) := by
  have hup : ∀ pn, pn ∈ (runScan env false seeds).1.added →
      pn ∈ (runScan env true seeds).1.added := by
    intro pn h
    exact (runScan_added_iff env true seeds pn).mpr
      (Reachable_mono ((runScan_added_iff env false seeds pn).mp h))
  refine ⟨hup, ?_, ?_⟩
  · intro pn h
    have h1 := hup pn h
    have k0 := ((runScan_inv env false seeds).addedKeys pn).mp h
    have k1 := ((runScan_inv env true seeds).addedKeys pn).mp h1
    obtain ⟨l0, e0⟩ := Option.isSome_iff_exists.mp k0
    obtain ⟨l1, e1⟩ := Option.isSome_iff_exists.mp k1
    obtain ⟨p0, hp0, hq0⟩ := (runScan_inv env false seeds).importsVal pn l0 e0
    obtain ⟨p1, hp1, hq1⟩ := (runScan_inv env true seeds).importsVal pn l1 e1
    rw [hp0] at hp1
    injection hp1 with he
    subst he
    rw [e0, e1, hq0, hq1]
  · intro hsc pn h1 h0
    exact reachable_only_added_std hsc ((runScan_added_iff env true seeds pn).mp h1)
      (fun hr => h0 ((runScan_added_iff env false seeds pn).mpr hr))

/-- Claim C6 witness: on the import-closed table `envClosed` the node `a`
of the disabled run survives enabling with the same import list, and the
node `s` added by enabling is a std package. -/
theorem toggle_law_witness :
    "a" ∈ (runScan envClosed true ["a"]).1.added ∧
    lookupA (runScan envClosed true ["a"]).1.Imports "a" =
      lookupA (runScan envClosed false ["a"]).1.Imports "a" ∧
    (∃ p, lookupA envClosed "s" = some p ∧ p.goroot = true) :=
  ⟨(toggle_law envClosed ["a"]).1 "a" (by decide),
    (toggle_law envClosed ["a"]).2.1 "a" (by decide),
    (toggle_law envClosed ["a"]).2.2 (by decide) "s" (by decide) (by decide)⟩

/-- Claim C7: an identifier the classifier cannot resolve is dropped with no
state change (`addPkg` returns the state unchanged and enqueues nothing);
it never becomes a node, everything not reachable through classifiable
packages is absent from the graph, and every identifier reachable through
other classifiable paths is present. -/
theorem classify_error_drops (env : Env) (inc : Bool) (seeds : List String)
    (pn : String) (herr : lookupA env pn = none) :
    (∀ ig : IG, ig.addPkg env pn = (ig, [])) ∧
    pn ∉ (runScan env inc seeds).1.added ∧
    (∀ q, ¬ Reachable env inc seeds q → q ∉ (runScan env inc seeds).1.added) ∧
    (∀ q, Reachable env inc seeds q → q ∈ (runScan env inc seeds).1.added) := by
  refine ⟨?_, ?_, ?_, ?_⟩
  · intro ig
    rcases addPkg_characterization env ig pn with
      ⟨-, heq⟩ | ⟨-, -, heq⟩ | ⟨p, -, hl, -, -, -⟩ |
      ⟨p, -, hl, -, -, -⟩ | ⟨p, ig2, -, hl, -, -, -, -⟩
    · exact heq
    · exact heq
    · rw [herr] at hl
      cases hl
    · rw [herr] at hl
      cases hl
    · rw [herr] at hl
      cases hl
  · intro h
    obtain ⟨-, p, hl, -, -⟩ := Reachable_ok ((runScan_added_iff env inc seeds pn).mp h)
    rw [herr] at hl
    cases hl
  · intro q hq h
    exact hq ((runScan_added_iff env inc seeds q).mp h)
  · intro q hq
    exact (runScan_added_iff env inc seeds q).mpr hq

/-- Claim C7 witness: with `bad` unclassifiable, `bad` is absent from the
graph while its sibling `b`, reachable through `a`, is present. -/
theorem classify_error_drops_witness :
    "bad" ∉ (runScan envBad false ["a"]).1.added ∧
    "b" ∈ (runScan envBad false ["a"]).1.added := by
  have h := classify_error_drops envBad false ["a"] "bad" (by decide)
  refine ⟨h.2.1, h.2.2.2 "b" ?_⟩
  have hA : Reachable envBad false ["a"] "a" :=
    Reachable.seed "a" (by decide)
      ⟨by decide, ⟨"a", ["bad", "b"], false⟩, by decide, by decide, by decide⟩
  exact Reachable.step "a" "b" hA (by decide)
    ⟨by decide, ⟨"b", [], false⟩, by decide, by decide, by decide⟩

/-- Claim C3, counterexample: on an identifier with two `/vendor/`
segments, `Match` tests the remainder after the **first** segment, not the
suffix after the last one: with the pattern "exactly `c`" the spec's rule
(remainder `c` after the last segment) would match, but the code returns
false because it matches against `b/vendor/c`. -/
theorem match_strips_first_not_last :
    matcher.Match ⟨some (fun l => l == "c".toList)⟩ "a/vendor/b/vendor/c" = false ∧
    afterLastVendor ("a/vendor/b/vendor/c".toList) = some ("c".toList) ∧
    (fun l : List Char => l == "c".toList) ("c".toList) = true := by
  refine ⟨by decide, by decide, by decide⟩

/-- Claim C3 as amended: with no pattern `Match` accepts everything; with a
pattern it applies the pattern to the whole identifier when no `/vendor/`
occurs, and otherwise to the suffix after the **first** occurrence of
`/vendor/` (the earliest position at which `/vendor/` is a prefix of the
remaining text). -/
theorem match_spec (P : List Char → Bool) (id : String) :
    matcher.Match ⟨none⟩ id = true ∧
    ((∀ i, vendorSeg.isPrefixOf (id.toList.drop i) = false) →
      matcher.Match ⟨some P⟩ id = P id.toList) ∧
    (∀ i, vendorSeg.isPrefixOf (id.toList.drop i) = true →
      (∀ j, j < i → vendorSeg.isPrefixOf (id.toList.drop j) = false) →
      matcher.Match ⟨some P⟩ id = P (id.toList.drop (i + vendorSeg.length))) := by
  refine ⟨rfl, ?_, ?_⟩
  · intro h
    have h' : afterFirstVendor id.data = none := afterFirstVendor_none id.toList h
    simp [matcher.Match, h']
  · intro i h hmin
    have h' : afterFirstVendor id.data = some (List.drop (i + vendorSeg.length) id.data) :=
      afterFirstVendor_some id.toList i h hmin
    simp [matcher.Match, h']

/-- Claim C3 witness: the single `/vendor/` of `x/vendor/c` starts at
index 1, and `Match` applies the pattern to the remainder `c`. -/
theorem match_spec_witness :
    matcher.Match ⟨some (fun l => l == "c".toList)⟩ "x/vendor/c" = true ∧
    matcher.Match ⟨none⟩ "x/vendor/c" = true := by
  have h := (match_spec (fun l => l == "c".toList) "x/vendor/c").2.2 1 (by decide)
    (fun j hj => by
      have hj0 : j = 0 := by omega
      subst hj0
      decide)
  exact ⟨by rw [h]; decide, (match_spec (fun l => l == "c".toList) "x/vendor/c").1⟩

/-- Claim C4, counterexample: a visited node that passes the matcher but has
no surviving filtered imports (here the childless node `a`) is omitted from
the adjacency listing, so the emitted node set is not equal to the set of
visited nodes passing the matcher. -/
theorem textNodes_omits_childless :
    (runScan envLone false ["a"]).1.textNodes ⟨some (fun _ => true)⟩ = [] ∧
    "a" ∈ (runScan envLone false ["a"]).1.added ∧
    matcher.Match ⟨some (fun _ => true)⟩ "a" = true := by
  refine ⟨by decide, by decide, by decide⟩

/-- Claim C4 as amended: the node set emitted by the adjacency listing with
filter P is a subset of the set emitted with no filter, and equals exactly
the visited nodes that pass `Match` **and have a nonempty filtered import
list**. -/
theorem textNodes_filter_law (ig : IG) (P : List Char → Bool) :
    (∀ pn, pn ∈ ig.textNodes ⟨some P⟩ → pn ∈ ig.textNodes ⟨none⟩) ∧
    (∀ pn, pn ∈ ig.textNodes ⟨some P⟩ ↔
      pn ∈ ig.added ∧ matcher.Match ⟨some P⟩ pn = true ∧
        filteredImports ig ⟨some P⟩ pn ≠ []) := by
  have hmem : ∀ (mr : matcher) (pn : String), pn ∈ ig.textNodes mr ↔
      pn ∈ ig.added ∧ mr.Match pn = true ∧ filteredImports ig mr pn ≠ [] := by
    intro mr pn
    unfold IG.textNodes
    rw [List.mem_filter, Bool.and_eq_true]
    constructor
    · rintro ⟨h1, h2, h3⟩
      refine ⟨h1, h2, ?_⟩
      intro hnil
      rw [hnil] at h3
      cases h3
    · rintro ⟨h1, h2, h3⟩
      refine ⟨h1, h2, ?_⟩
      cases hl : filteredImports ig mr pn
      · exact absurd hl h3
      · rfl
  constructor
  · intro pn h
    obtain ⟨h1, -, h3⟩ := (hmem ⟨some P⟩ pn).mp h
    refine (hmem ⟨none⟩ pn).mpr ⟨h1, rfl, ?_⟩
    obtain ⟨pi, hpi⟩ := List.exists_mem_of_ne_nil _ h3
    exact List.ne_nil_of_mem (filteredImports_mono ig P pn pi hpi)
  · exact hmem ⟨some P⟩

/-- Claim C4 witness: in the two-node graph over `envPair`, node `a` is
emitted under the trivial pattern and hence also with no filter. -/
theorem textNodes_filter_law_witness :
    "a" ∈ (runScan envPair false ["a"]).1.textNodes ⟨none⟩ ∧
    "a" ∈ (runScan envPair false ["a"]).1.textNodes ⟨some (fun _ => true)⟩ :=
  ⟨(textNodes_filter_law (runScan envPair false ["a"]).1 (fun _ => true)).1 "a" (by decide),
    ((textNodes_filter_law (runScan envPair false ["a"]).1 (fun _ => true)).2 "a").mpr
      ⟨by decide, by decide, by decide⟩⟩

/-- Claim C8, counterexample: when the rasterizer fails after the temporary
file was created, `log.Fatalf` exits the process immediately: the run exits
non-zero but `os.Remove` never executes, so the temporary image file is NOT
removed on that exit path. -/
theorem showGraph_leaks_on_dot_failure :
    ((NewImportGraph "" false []).ShowGraph ⟨true, false, true⟩ "xdg-open"
      ⟨none⟩).tempCreated = true ∧
    ((NewImportGraph "" false []).ShowGraph ⟨true, false, true⟩ "xdg-open"
      ⟨none⟩).tempRemoved = false ∧
    ((NewImportGraph "" false []).ShowGraph ⟨true, false, true⟩ "xdg-open"
      ⟨none⟩).fatalExit = true := by
  refine ⟨rfl, rfl, rfl⟩

/-- Claim C8 as amended: `ShowGraph` removes the temporary image only on the
all-success path; any external failure terminates the run with a non-zero
status, and a rasterizer or viewer failure after the temp file was created
leaves the file behind. -/
theorem showGraph_spec (ig : IG) (ex : ExecEnv) (v : String) (mr : matcher) :
    (ex.tempFileOk = true → ex.dotOk = true → ex.viewerOk = true →
      (ig.ShowGraph ex v mr).fatalExit = false ∧
        (ig.ShowGraph ex v mr).tempRemoved = true) ∧
    ((ex.tempFileOk = false ∨ ex.dotOk = false ∨ ex.viewerOk = false) →
      (ig.ShowGraph ex v mr).fatalExit = true) ∧
    (ex.tempFileOk = true → (ex.dotOk = false ∨ ex.viewerOk = false) →
      (ig.ShowGraph ex v mr).tempCreated = true ∧
        (ig.ShowGraph ex v mr).tempRemoved = false) := by
  rcases ex with ⟨t, d, vv⟩
  cases t <;> cases d <;> cases vv <;>
    simp [IG.ShowGraph]

/-- Claim C8 witness: the success path removes the file; a viewer failure
exits non-zero. -/
theorem showGraph_spec_witness :
    ((NewImportGraph "" false []).ShowGraph ⟨true, true, true⟩ "v" ⟨none⟩).tempRemoved
      = true ∧
    ((NewImportGraph "" false []).ShowGraph ⟨true, true, false⟩ "v" ⟨none⟩).fatalExit
      = true :=
  ⟨((showGraph_spec (NewImportGraph "" false []) ⟨true, true, true⟩ "v" ⟨none⟩).1
      rfl rfl rfl).2,
    (showGraph_spec (NewImportGraph "" false []) ⟨true, true, false⟩ "v" ⟨none⟩).2.1
      (Or.inr (Or.inr rfl))⟩

/-- Claim C9: in `WriteDot`, an edge whose filtered target was never added
as a graph node is emitted with target index 0 — the Go map `nodes` returns
the zero value for absent keys, and 0 is the index of the first node in
visitation order. -/
theorem dot_absent_target_zero (ig : IG) (w : List String) (mr : matcher)
    (i : Nat) (pn pi : String)
    (hmem : (i, pn) ∈ ig.added.enum)
    (hm : mr.Match pn = true)
    (hpi : pi ∈ filteredImports ig mr pn)
    (habs : pi ∉ ig.added) :
    dotEdgeLine i 0 ∈ (ig.WriteDot w mr).writerLines := by
  have hz : lookupD (dotNodes 0 ig.added) pi 0 = 0 := by
    unfold lookupD
    rw [lookupA_dotNodes_none 0 ig.added pi habs]
    rfl
  have hblock : dotEdgeLine i 0 ∈ dotBlock ig mr (dotNodes 0 ig.added) i pn := by
    unfold dotBlock
    rw [if_neg (by simp [hm]), if_neg (List.ne_nil_of_mem hpi)]
    exact List.mem_cons_of_mem _ (List.mem_map.mpr ⟨pi, hpi, by rw [hz]⟩)
  have hfl : dotEdgeLine i 0 ∈
      (ig.added.enum.map (fun e => dotBlock ig mr (dotNodes 0 ig.added) e.1 e.2)).flatten :=
    List.mem_flatten.mpr ⟨dotBlock ig mr (dotNodes 0 ig.added) i pn,
      List.mem_map.mpr ⟨(i, pn), hmem, rfl⟩, hblock⟩
  unfold IG.WriteDot
  simp only [List.mem_append]
  exact Or.inl (Or.inr hfl)

/-- Claim C9 witness: in a one-node graph whose node `a` has the absent
filtered import `x`, the emitted edge is `0 -> 0;`. -/
theorem dot_absent_target_zero_witness :
    dotEdgeLine 0 0 ∈ (igDotW.WriteDot [] ⟨none⟩).writerLines :=
  dot_absent_target_zero igDotW [] ⟨none⟩ 0 "a" "x" (by decide) (by decide)
    (by decide) (by decide)

/-- Claim C10: `WriteFlat` leaves its writer argument untouched and prints
the lexicographically sorted, matcher-filtered node list to standard output,
whereas `WriteText` and `WriteDot` print nothing to standard output (all
their output goes to the writer). -/
theorem writeFlat_frame (ig : IG) (w : List String) (mr : matcher) :
    (ig.WriteFlat w mr).writerLines = w ∧
    (∀ pn, pn ∈ (ig.WriteFlat w mr).stdoutLines ↔
      pn ∈ ig.added ∧ mr.Match pn = true) ∧
    List.Sorted (fun a b => strLe a b = true) (ig.WriteFlat w mr).stdoutLines ∧
    (ig.WriteText w mr).stdoutLines = [] ∧
    (ig.WriteDot w mr).stdoutLines = [] := by
  refine ⟨rfl, ?_, sorted_sortStrings _, rfl, rfl⟩
  intro pn
  show pn ∈ sortStrings (ig.added.filter (fun x => mr.Match x)) ↔ _
  rw [mem_sortStrings, List.mem_filter]

end InspectVendor
